import Mathlib

/-!
Verification of the Error Batch Convergence Engine of the `mcp-phpstan`
repository: a shallow embedding in Lean 4 of the report formatter / batch
planner (`src/ErrorFormatter/Formatter.py`), the fuzzy-matching text patcher
(`src/McpIntegration/McpClient.py`, `apply_fixes`) and the incremental
convergence loop (`src/incremental_processor.py`, `IncrementalProcessor.process`),
together with proofs and refutations of the specification's claims about them.

Strings are modelled as `List Char` internally (Lean `String` at the API
boundary).  Python semantics that matter here and are modelled explicitly:
* `str.replace(a, b)` replaces EVERY non-overlapping occurrence, left to
  right, and for an empty pattern interleaves `b` around every character;
* `s.split()` (no argument) splits on runs of whitespace, dropping empties,
  so `' '.join(s.split())` collapses whitespace runs to single spaces;
* `s.split('\n')` splits on newlines keeping empty pieces;
* `a in s` is substring containment (always true for the empty string);
* `//` is floor division and raises `ZeroDivisionError` for divisor 0
  (modelled with `Option`).
Python's `str.split()` whitespace set is modelled by the six ASCII whitespace
characters, and `str.lower()` by per-character ASCII lowering; all string
data in the claims is ASCII, where both models agree with Python.
-/

namespace McpPhpstan

/-- The six ASCII whitespace characters recognised by Python's `str.split()`
(space, tab, newline, carriage return, vertical tab, form feed). -/
def isPySpace (c : Char) : Bool :=
  c = ' ' || c = '\t' || c = '\n' || c = '\r' || c = '\x0b' || c = '\x0c'

/-- Helper for `pySplitWs`: accumulates the current word (reversed). -/
def splitWsAux : List Char → List Char → List (List Char)
  | [], acc => if acc = [] then [] else [acc.reverse]
  | c :: rest, acc =>
    if isPySpace c then
      if acc = [] then splitWsAux rest []
      else acc.reverse :: splitWsAux rest []
    else splitWsAux rest (c :: acc)

/-- Python `s.split()`: split on runs of whitespace, dropping empty pieces. -/
def pySplitWs (s : List Char) : List (List Char) := splitWsAux s []

/-- Python `' '.join(s.split())`: collapse every whitespace run to a single
space and strip leading/trailing whitespace.  This is the normalisation used
by the fuzzy matcher in `McpClient.apply_fixes`. -/
def normWsL (s : List Char) : List Char := List.intercalate [' '] (pySplitWs s)

/-- Python substring containment `pat in s` (true for the empty pattern). -/
def occursIn (pat : List Char) : List Char → Bool
  | [] => pat.isEmpty
  | c :: rest => pat.isPrefixOf (c :: rest) || occursIn pat rest

/-- Python `s.split('\n')`: split on newlines, keeping empty pieces
(never returns an empty list). -/
def splitNl : List Char → List (List Char)
  | [] => [[]]
  | c :: rest =>
    match splitNl rest with
    | [] => [[]]
    | l :: ls => if c = '\n' then [] :: l :: ls else (c :: l) :: ls

/-- Fueled engine of Python `str.replace` for a non-empty pattern: replaces
every non-overlapping occurrence of `pat` left to right.  One unit of fuel is
spent per step; since each step either consumes one character or at least
`pat.length ≥ 1` characters, fuel `s.length` computes the exact Python
result (see `pyReplaceL`). -/
def replaceFuel (pat rep : List Char) : Nat → List Char → List Char
  | _, [] => []
  | 0, s => s
  | fuel + 1, c :: rest =>
    if pat.isPrefixOf (c :: rest) then
      rep ++ replaceFuel pat rep fuel ((c :: rest).drop pat.length)
    else
      c :: replaceFuel pat rep fuel rest

/-- Python `s.replace(pat, rep)`: every non-overlapping occurrence is
replaced, left to right; an empty pattern interleaves `rep` around every
character (`"abc".replace("", "-") = "-a-b-c-"`). -/
def pyReplaceL (pat rep s : List Char) : List Char :=
  if pat.isEmpty then rep ++ s.foldr (fun c acc => c :: (rep ++ acc)) []
  else replaceFuel pat rep s.length s

/-- Python `str.lower()` restricted to ASCII (all error codes and claim data
are ASCII). -/
def pyLowerL (s : List Char) : List Char := s.map Char.toLower

/-- The pure patching core of `McpClient.apply_fixes` for one fix applied to
one file's content (file resolution and I/O are modelled separately in
`applyOneFix`).  Mirrors lines 320–349 of `src/McpIntegration/McpClient.py`:
* if `original` occurs verbatim, `content.replace(original, fixed)`;
* otherwise, if the whitespace-normalised original occurs in the normalised
  content, scan the lines for the first one whose normalised form contains
  the normalised original and replace THAT line's exact text
  (`content.replace(line, fixed)`); if no single line matches, the
  reassignment never happens and `content.replace(original, fixed)` runs,
  which is a no-op — yet the fix is still counted as applied;
* otherwise the fix is skipped (`none`).
The `re.findall` guard in the source is redundant: the pattern is the
normalised original with each single space matching `\s+`, searched in the
normalised content whose whitespace runs are already single spaces, so it
finds a match exactly when the `in` test just above it succeeded. -/
def patchContent (original fixed content : String) : Option String :=
  let o := original.data
  let f := fixed.data
  let c := content.data
  if occursIn o c then
    some (String.mk (pyReplaceL o f c))
  else
    let no := normWsL o
    if occursIn no (normWsL c) then
      match (splitNl c).find? (fun line => occursIn no (normWsL line)) with
      | some line => some (String.mk (pyReplaceL line f c))
      | none => some (String.mk (pyReplaceL o f c))
    else
      none

/-! ## Fix application (`McpClient.apply_fixes`) -/

/-- A fix proposal returned by the external Fixer (`file`, `original_code`,
`fixed_code`; the explanation plays no role in the semantics).  A missing or
empty field is modelled by `""`, which is exactly what the source's
`if not file_path or not original_code or not fixed_code` guard rejects. -/
structure FixProposal where
  file : String
  original_code : String
  fixed_code : String
deriving DecidableEq

/-- The file system, as the patcher sees it: an association list from full
paths to file contents (`os.path.isfile` ↦ key present, read ↦ lookup,
write ↦ value update). -/
def FileSys := List (String × String)
deriving DecidableEq

/-- `os.path.join` for the relative second components used by `apply_fixes`. -/
def pathJoin (a b : String) : String := a ++ "/" ++ b

/-- Python `file_path.replace('src/', '')` (removes every occurrence). -/
def stripSrc (p : String) : String :=
  String.mk (pyReplaceL "src/".data "".data p.data)

/-- The candidate-path resolution of `McpClient.apply_fixes` (lines 296–308):
try the path as given, under `src/`, with `src/` stripped, and stripped under
`src/`; the first candidate that exists on disk wins. -/
def resolveFix (fs : FileSys) (project file : String) : Option String :=
  let cands := [pathJoin project file,
                pathJoin project (pathJoin "src" file),
                pathJoin project (stripSrc file),
                pathJoin project (pathJoin "src" (stripSrc file))]
  cands.find? (fun p => ((fs : List (String × String)).lookup p).isSome)

/-- Overwrite the content stored at path `p` (full-file write). -/
def fsWrite (fs : FileSys) (p c : String) : FileSys :=
  (fs : List (String × String)).map (fun e => if e.1 = p then (p, c) else e)

/-- One iteration of the `for fix in fixes` loop of `apply_fixes`: returns the
(possibly updated) file system and whether this fix was counted as applied
(`success_count += 1`).  Skips: missing fields, unresolvable path, no exact or
fuzzy match.  A skipped fix never touches the file system. -/
def applyOneFix (project : String) (fs : FileSys) (fix : FixProposal) :
    FileSys × Bool :=
  if fix.file = "" ∨ fix.original_code = "" ∨ fix.fixed_code = "" then (fs, false)
  else
    match resolveFix fs project fix.file with
    | none => (fs, false)
    | some path =>
      match (fs : List (String × String)).lookup path with
      | none => (fs, false)
      | some content =>
        match patchContent fix.original_code fix.fixed_code content with
        | none => (fs, false)
        | some newContent => (fsWrite fs path newContent, true)

/-- One fold step of the `for` loop of `apply_fixes`: apply the fix to the
current file system and bump `success_count` when it was applied. -/
def applyFixesStep (project : String) (acc : FileSys × Nat) (fix : FixProposal) :
    FileSys × Nat :=
  ((applyOneFix project acc.1 fix).1,
    if (applyOneFix project acc.1 fix).2 then acc.2 + 1 else acc.2)

/-- The whole `for` loop of `apply_fixes`: threads the file system and counts
the applied fixes (`success_count`). -/
def applyFixesCount (project : String) (fs : FileSys) (fixes : List FixProposal) :
    FileSys × Nat :=
  fixes.foldl (applyFixesStep project) (fs, 0)

/-- `McpClient.apply_fixes`: an empty fix list returns `True` immediately;
otherwise the fixes are applied in order and the result is
`success_count > 0`. -/
def applyFixes (project : String) (fs : FileSys) (fixes : List FixProposal) :
    FileSys × Bool :=
  if fixes.isEmpty then (fs, true)
  else
    ((applyFixesCount project fs fixes).1,
      decide (0 < (applyFixesCount project fs fixes).2))

/-! ## Error formatter and batch planner (`PhpStanErrorFormatter`) -/

/-- `PhpStanError` (`src/ErrorFormatter/Formatter.py`).  `error_code` and
`suggestion` are optional. -/
structure PhpStanError where
  message : String
  file : String
  line : Nat
  error_type : String
  error_code : Option String
  suggestion : Option String
deriving DecidableEq

/-- `PhpStanErrorFormatter`: its `__init__` stores `max_errors_per_batch`
verbatim, with no validation whatsoever. -/
structure PhpStanErrorFormatter where
  max_errors_per_batch : Int
deriving DecidableEq

/-- `PhpStanErrorFormatter.__init__`: a plain field assignment; construction
never fails, whatever the value. -/
def mkFormatter (m : Int) : PhpStanErrorFormatter := ⟨m⟩

/-- `PhpStanErrorFormatter.get_total_batches`:
`(total_errors + self.max_errors_per_batch - 1) // self.max_errors_per_batch`.
Python `//` is floor division (`Int.fdiv`) and raises `ZeroDivisionError`
when the divisor is `0`, modelled by `none`. -/
def get_total_batches (f : PhpStanErrorFormatter) (totalErrors : Int) : Option Int :=
  if f.max_errors_per_batch = 0 then none
  else some (Int.fdiv (totalErrors + f.max_errors_per_batch - 1) f.max_errors_per_batch)

/-- `PhpStanErrorFormatter._determine_error_type`: a chain of substring tests
against the lowercased error code, in source order. -/
def determine_error_type (message errorCode : String) : String :=
  let lc := pyLowerL errorCode.data
  if occursIn "undefined".data lc then "undefined_symbol"
  else if occursIn "type".data lc then "type_error"
  else if occursIn "missing".data lc then "missing_type"
  else if occursIn "not.found".data lc then "not_found"
  else if occursIn "arguments".data lc then "argument_error"
  else "other"

/-- The `batch` metadata dictionary built by `format_for_mcp`. -/
structure BatchInfo where
  index : Nat
  total_errors : Nat
  batch_size : Nat
  has_more : Bool
deriving DecidableEq

/-- The dictionary returned by `format_for_mcp`: metadata plus the errors of
the batch grouped by file.  Python dicts preserve insertion order, so
`errors_by_file` is an association list in first-seen-file order. -/
structure FormattedBatch where
  batch : BatchInfo
  errors_by_file : List (String × List PhpStanError)
deriving DecidableEq

/-- Append an error to its file's bucket (creating the bucket at the end when
absent) — the body of the grouping loop in `format_for_mcp`. -/
def insertGrouped : List (String × List PhpStanError) → PhpStanError →
    List (String × List PhpStanError)
  | [], e => [(e.file, [e])]
  | (f, es) :: rest, e =>
    if f = e.file then (f, es ++ [e]) :: rest
    else (f, es) :: insertGrouped rest e

/-- Group a batch's errors by file, in first-seen-file order, preserving the
relative order of each file's errors. -/
def groupByFile (batch : List PhpStanError) : List (String × List PhpStanError) :=
  batch.foldl insertGrouped []

/-- Concatenate the per-file buckets of a grouping back into one plain
sequence of error records, in their (first-seen) dictionary order. -/
def flattenGroups (g : List (String × List PhpStanError)) : List PhpStanError :=
  (g.map Prod.snd).flatten

/-- `PhpStanErrorFormatter.format_for_mcp` for a non-negative
`max_errors_per_batch` `m` (the regime of every claim; Python slicing with the
non-negative indices `batch_index * m` and `batch_index * m + m` is
`drop`/`take`). -/
def format_for_mcp (m : Nat) (errors : List PhpStanError) (batchIndex : Nat) :
    FormattedBatch :=
  let startIdx := batchIndex * m
  let endIdx := startIdx + m
  let batchErrors := (errors.drop startIdx).take m
  { batch := { index := batchIndex,
               total_errors := errors.length,
               batch_size := batchErrors.length,
               has_more := decide (endIdx < errors.length) },
    errors_by_file := groupByFile batchErrors }

/-- `get_total_batches` restricted to the natural numbers (positive batch
size), as used by `run_phpstan_analysis` to drive the batch loop. -/
def totalBatchesNat (m n : Nat) : Nat := (n + m - 1) / m

/-- Flatten a formatted batch back into a plain sequence of error records:
concatenate the per-file buckets in their (first-seen) dictionary order. -/
def flattenBatch (fb : FormattedBatch) : List PhpStanError :=
  flattenGroups fb.errors_by_file

/-! ## The convergence loop (`IncrementalProcessor.process`) -/

/-- The statistics dictionary of `IncrementalProcessor` (`errors_by_type` is a
Python dict, i.e. an insertion-ordered association list). -/
structure Stats where
  iterations : Nat
  total_errors_fixed : Nat
  total_batches_processed : Nat
  errors_by_type : List (String × Nat)
deriving DecidableEq

/-- The statistics at construction time. -/
def initStats : Stats := ⟨0, 0, 0, []⟩

/-- Increment `errors_by_type[t]`, creating the entry (at the end, Python
dict insertion order) when absent. -/
def bumpType : List (String × Nat) → String → List (String × Nat)
  | [], t => [(t, 1)]
  | (k, n) :: rest, t =>
    if k = t then (k, n + 1) :: rest else (k, n) :: bumpType rest t

/-- `IncrementalProcessor._update_error_stats`: tally every error record of
the batch by its `error_type`. -/
def updateErrorStats (st : Stats) (b : FormattedBatch) : Stats :=
  { st with errors_by_type :=
      (flattenBatch b).foldl (fun m e => bumpType m e.error_type) st.errors_by_type }

/-- The ways one run of `process` can end.  `done` is the `return True` on a
zero analyzer exit code; `stuck` is the zero-progress `return False`;
`exhausted` is the fall-through after the `while`; `applyFailed` is the early
`return False` (line 126) taken when a batch's non-empty fix list fails to
apply — it bypasses the end-of-iteration bookkeeping entirely. -/
inductive Outcome where
  | done
  | applyFailed
  | stuck
  | exhausted
deriving DecidableEq

/-- The external collaborators of one convergence run, as total functions of
the current file system: the Analyzer (`run_phpstan_analysis`: exit code and
formatted batches) and the Fixer (`send_to_claude`: the `fixes` list of the
response; an error response carries `fixes = []`). -/
structure LoopEnv where
  analyze : FileSys → Int × List FormattedBatch
  fixer : FileSys → FormattedBatch → List FixProposal

/-- The `for batch_idx, batch in enumerate(batches)` loop of `process`
(lines 103–135): threads the file system, statistics and the
`errors_fixed_this_iteration` counter.  A batch with no suggested fixes is
skipped (but still counted in `total_batches_processed`); a batch whose
non-empty fixes fail to apply triggers the early `return False`, modelled as
`Except.error` — note that this return happens BEFORE the
`total_batches_processed` update for that batch. -/
def runBatches (env : LoopEnv) (project : String) :
    List FormattedBatch → FileSys → Stats → Nat →
    Except (FileSys × Stats) (FileSys × Stats × Nat)
  | [], fs, st, fixed => .ok (fs, st, fixed)
  | b :: rest, fs, st, fixed =>
    if (env.fixer fs b).isEmpty then
      runBatches env project rest fs
        { st with total_batches_processed := st.total_batches_processed + 1 } fixed
    else
      if (applyFixes project fs (env.fixer fs b)).2 then
        runBatches env project rest (applyFixes project fs (env.fixer fs b)).1
          { updateErrorStats st b with total_batches_processed :=
              (updateErrorStats st b).total_batches_processed + 1 }
          (fixed + (env.fixer fs b).length)
      else
        .error ((applyFixes project fs (env.fixer fs b)).1, st)

/-- The `while iteration < self.max_iterations` loop of `process`, with
`remaining = max_iterations - iteration` as structural fuel (so
`remaining + iteration = max_iterations` throughout).  Returns the outcome
(`done`/`stuck`/`exhausted` map to the source's `return True`/`False`/`False`;
`applyFailed` is the early `return False`), the final file system and the
final statistics. -/
def processAux (env : LoopEnv) (project : String) :
    Nat → Nat → FileSys → Stats → Nat → Outcome × FileSys × Stats
  | 0, iteration, fs, st, totalFixed =>
    (.exhausted, fs,
      { st with iterations := iteration, total_errors_fixed := totalFixed })
  | remaining + 1, iteration, fs, st, totalFixed =>
    if (env.analyze fs).1 = 0 then
      (.done, fs,
        { st with iterations := iteration + 1, total_errors_fixed := totalFixed })
    else
      match runBatches env project (env.analyze fs).2 fs st 0 with
      | .error (fs', st') => (.applyFailed, fs', st')
      | .ok (fs', st', fixedThisIter) =>
        if fixedThisIter = 0 then
          (.stuck, fs',
            { st' with iterations := iteration + 1,
                       total_errors_fixed := totalFixed + fixedThisIter })
        else
          processAux env project remaining (iteration + 1) fs' st'
            (totalFixed + fixedThisIter)

/-- `IncrementalProcessor.process`: run up to `maxIter` iterations starting
from the file system `fs` and fresh statistics. -/
def process (env : LoopEnv) (project : String) (maxIter : Nat) (fs : FileSys) :
    Outcome × FileSys × Stats :=
  processAux env project maxIter 0 fs initStats 0

/-! ## Definitions taken from the specification's words (for comparison with
the source embeddings) and concrete sample data for counterexamples and
witnesses -/

/-- Modelled from the spec: replacement of exactly the FIRST occurrence of
`pat`, leaving later occurrences unchanged — what the spec sentence "replace
the **first** occurrence with `fixed_code`" describes.  Compared against the
source's `content.replace`, which replaces every occurrence. -/
def replaceFirstOnly (pat rep : List Char) : List Char → List Char
  | [] => []
  | c :: rest =>
    if pat.isPrefixOf (c :: rest) && !pat.isEmpty then
      rep ++ (c :: rest).drop pat.length
    else
      c :: replaceFirstOnly pat rep rest

/-- The classification table of the spec sentence for `_determine_error_type`:
keywords in priority order, each with its error type. -/
def keywordTable : List (String × String) :=
  [("undefined", "undefined_symbol"),
   ("type", "type_error"),
   ("missing", "missing_type"),
   ("not.found", "not_found"),
   ("arguments", "argument_error")]

/-- Modelled from the spec: "the first matching keyword among `undefined`,
`type`, `missing`, `not.found`, `arguments` (checked in that priority order)
decides the type; no match → `other`" — a first-match lookup in
`keywordTable` against the lowercased error code. -/
def classifySpec (errorCode : String) : String :=
  match keywordTable.find? (fun kv => occursIn kv.1.data (pyLowerL errorCode.data)) with
  | some kv => kv.2
  | none => "other"

/-- Sample error records (distinct files `f1`, `f2`, `f1` interleaved). -/
def errA : PhpStanError := ⟨"m1", "f1", 1, "other", none, none⟩

/-- Second sample error record (file `f2`). -/
def errB : PhpStanError := ⟨"m2", "f2", 2, "other", none, none⟩

/-- Third sample error record (file `f1` again). -/
def errC : PhpStanError := ⟨"m3", "f1", 3, "other", none, none⟩

/-- A sample file system with one file. -/
def fsSample : FileSys := [("p/a.php", "x")]

/-- A fix whose file path resolves to no candidate: `apply_fixes` skips it. -/
def badFix : FixProposal := ⟨"zzz", "orig", "fix"⟩

/-- A sample formatted batch (one error in file `f1`). -/
def batchA : FormattedBatch := ⟨⟨0, 2, 1, true⟩, [("f1", [errA])]⟩

/-- A second sample formatted batch (one error in file `f2`). -/
def batchB : FormattedBatch := ⟨⟨1, 2, 1, false⟩, [("f2", [errB])]⟩

/-- An environment whose analyzer always reports errors in two batches and
whose fixer proposes an unapplicable fix for the first batch and nothing for
the second: the first batch's `apply_fixes` fails. -/
def envTwoBatches : LoopEnv :=
  ⟨fun _ => (1, [batchA, batchB]), fun _ b => if b = batchA then [badFix] else []⟩

/-- An environment whose analyzer always reports errors (one batch) and whose
fixer proposes an unapplicable fix for every batch. -/
def envBadFix : LoopEnv :=
  ⟨fun _ => (1, [batchA]), fun _ _ => [badFix]⟩

/-- An environment whose analyzer always reports errors and whose fixer never
suggests any fix. -/
def envEmptyFixer : LoopEnv :=
  ⟨fun _ => (1, [batchA]), fun _ _ => []⟩

/-! ## Helper lemmas: substring search and Python replace -/

theorem occursIn_nil_left (s : List Char) : occursIn [] s = true := by
  cases s <;> simp [occursIn, List.isPrefixOf]

theorem occursIn_append_self (pat a b : List Char) :
    occursIn pat (a ++ pat ++ b) = true := by
  induction a with
  | nil =>
    cases pat with
    | nil => simpa using occursIn_nil_left b
    | cons p pt =>
      have hpre : (p :: pt).isPrefixOf ((p :: pt) ++ b) = true :=
        List.isPrefixOf_iff_prefix.mpr (List.prefix_append _ _)
      simp only [List.nil_append, List.cons_append] at hpre ⊢
      simp [occursIn, hpre]
  | cons c a' ih =>
    simp only [List.cons_append, occursIn, List.append_eq, ih, Bool.or_true]

theorem replaceFuel_nil (pat rep : List Char) (fuel : Nat) :
    replaceFuel pat rep fuel [] = [] := by
  cases fuel <;> rfl

theorem replaceFuel_congr (pat rep : List Char) (hp : pat ≠ []) :
    ∀ (f1 f2 : Nat) (s : List Char), s.length ≤ f1 → s.length ≤ f2 →
      replaceFuel pat rep f1 s = replaceFuel pat rep f2 s := by
  intro f1
  induction f1 with
  | zero =>
    intro f2 s h1 _
    have hs : s = [] := List.eq_nil_of_length_eq_zero (Nat.le_zero.mp h1)
    subst hs
    rw [replaceFuel_nil, replaceFuel_nil]
  | succ f1' ih =>
    intro f2 s h1 h2
    cases s with
    | nil => rw [replaceFuel_nil, replaceFuel_nil]
    | cons c rest =>
      cases f2 with
      | zero => simp at h2
      | succ g =>
        have hpat : 0 < pat.length := List.length_pos.mpr hp
        have hr1 : rest.length ≤ f1' := by simpa using h1
        have hr2 : rest.length ≤ g := by simpa using h2
        have hd : ((c :: rest).drop pat.length).length ≤ rest.length := by
          simp only [List.length_drop, List.length_cons]
          omega
        by_cases hpre : pat.isPrefixOf (c :: rest) = true
        · simp only [replaceFuel, hpre, if_true]
          rw [ih _ _ (le_trans hd hr1) (le_trans hd hr2)]
        · simp only [replaceFuel, hpre, if_false, Bool.false_eq_true]
          rw [ih _ _ hr1 hr2]

theorem replaceFuel_no_occurrence (pat rep : List Char) :
    ∀ (fuel : Nat) (s : List Char), occursIn pat s = false →
      replaceFuel pat rep fuel s = s := by
  intro fuel
  induction fuel with
  | zero => intro s _; cases s <;> rfl
  | succ f ih =>
    intro s h
    cases s with
    | nil => rfl
    | cons c rest =>
      simp only [occursIn, Bool.or_eq_false_iff] at h
      simp only [replaceFuel, h.1, if_false, Bool.false_eq_true]
      rw [ih rest h.2]

theorem occursIn_pat_ne_nil {pat s : List Char} (h : occursIn pat s = false) :
    pat ≠ [] := by
  intro e
  subst e
  rw [occursIn_nil_left] at h
  exact Bool.true_eq_false.mp h

theorem pyReplaceL_no_occurrence (pat rep s : List Char)
    (h : occursIn pat s = false) : pyReplaceL pat rep s = s := by
  have hp : pat ≠ [] := occursIn_pat_ne_nil h
  unfold pyReplaceL
  rw [if_neg (by simpa using hp)]
  exact replaceFuel_no_occurrence pat rep s.length s h

theorem pyReplaceL_append (pat rep : List Char) (hp : pat ≠ []) :
    ∀ (a b : List Char),
      (∀ i, i < a.length → pat.isPrefixOf ((a ++ pat ++ b).drop i) = false) →
      pyReplaceL pat rep (a ++ pat ++ b) = a ++ rep ++ pyReplaceL pat rep b := by
  have hemp : pat.isEmpty = false := by simpa using hp
  intro a
  induction a with
  | nil =>
    intro b _
    obtain ⟨p, pt, rfl⟩ : ∃ p pt, pat = p :: pt := by
      cases pat with
      | nil => exact absurd rfl hp
      | cons p pt => exact ⟨p, pt, rfl⟩
    have hpre : (p :: pt).isPrefixOf (p :: (pt ++ b)) = true := by
      have := List.isPrefixOf_iff_prefix.mpr (List.prefix_append (p :: pt) b)
      simpa using this
    simp only [List.nil_append, pyReplaceL, hemp, if_false, Bool.false_eq_true,
      List.cons_append, List.length_cons, List.length_append]
    show replaceFuel (p :: pt) rep (pt.length + b.length + 1) (p :: (pt ++ b)) = _
    rw [show pt.length + b.length + 1 = (pt.length + b.length) + 1 from rfl]
    simp only [replaceFuel, hpre, if_true]
    have hdrop : (p :: (pt ++ b)).drop (p :: pt).length = b := by
      simpa using List.drop_left pt b
    rw [hdrop]
    rw [replaceFuel_congr (p :: pt) rep hp _ b.length b (by simp) le_rfl]
  | cons c a' ih =>
    intro b hfirst
    have h0 : pat.isPrefixOf (c :: (a' ++ pat ++ b)) = false := by
      have := hfirst 0 (by simp)
      simpa using this
    simp only [List.cons_append, pyReplaceL, hemp, if_false, Bool.false_eq_true,
      List.length_cons]
    simp only [replaceFuel, h0, if_false, Bool.false_eq_true]
    have ih' := ih b (fun i hi => by
      have := hfirst (i + 1) (by simpa using Nat.succ_lt_succ hi)
      simpa using this)
    simp only [pyReplaceL, hemp, if_false, Bool.false_eq_true] at ih'
    rw [ih']

/-! ## Claim C1 -/

/-- C1 (counterexample): the claim says `apply_fixes` replaces exactly the
first occurrence of `original_code` and leaves later occurrences unchanged.
On the file content `"ab ab"` with `original_code = "ab"` and
`fixed_code = "cd"`, first-occurrence-only replacement (the claim's own
words, `replaceFirstOnly`) yields `"cd ab"`, but the code
(`content.replace`) yields `"cd cd"`: the second occurrence is rewritten
too. -/
theorem claim_c1_counterexample :
    patchContent "ab" "cd" "ab ab" = some "cd cd" ∧
      String.mk (replaceFirstOnly "ab".data "cd".data "ab ab".data) = "cd ab" ∧
      ("cd cd" : String) ≠ "cd ab" := by
  refine ⟨by decide, by decide, by decide⟩

/-- C1 (amended): for every fix whose `original_code` occurs verbatim in the
resolved file's content, `apply_fixes` replaces EVERY non-overlapping
occurrence of `original_code` with `fixed_code` (plain substring replacement,
left to right) and writes the full file back: decomposing the content as
`a ++ original ++ b` with the first occurrence starting at `|a|`, the patched
content is `a ++ fixed ++ (b with every occurrence replaced)` — the first
occurrence is replaced and replacement then continues over the rest of the
file, so later occurrences do not stay unchanged. -/
theorem claim_c1_amended (o f c : String) (a b : List Char)
    (hdecomp : c.data = a ++ o.data ++ b) (hp : o.data ≠ [])
    (hfirst : ∀ i, i < a.length → o.data.isPrefixOf (c.data.drop i) = false) :
    patchContent o f c = some (String.mk (a ++ f.data ++ pyReplaceL o.data f.data b)) := by
  have hocc : occursIn o.data c.data = true := by
    rw [hdecomp]; exact occursIn_append_self o.data a b
  have hrepl : pyReplaceL o.data f.data c.data = a ++ f.data ++ pyReplaceL o.data f.data b := by
    rw [hdecomp]
    exact pyReplaceL_append o.data f.data hp a b (fun i hi => by
      have := hfirst i hi; rwa [hdecomp] at this)
  unfold patchContent
  simp only [hocc, if_true]
  rw [hrepl]

/-- C1 (witness for the amended theorem): on content `"zab ab"` with original
`"ab"` and replacement `"CD"`, the amended theorem applies with `a = "z"`,
`b = " ab"` and yields `"zCD CD"`. -/
theorem claim_c1_amended_witness :
    patchContent "ab" "CD" "zab ab" = some "zCD CD" := by
  have h := claim_c1_amended "ab" "CD" "zab ab" ['z'] " ab".data
    (by decide) (by decide) (by decide)
  rw [h]
  decide

/-! ## Claim C4 -/

/-- C4 (counterexample): constructing `PhpStanErrorFormatter` with
`max_errors_per_batch = 0` does NOT fail — `__init__` stores the value with
no validation — and `get_total_batches` then divides by zero
(`ZeroDivisionError`, modelled as `none`). -/
theorem claim_c4_counterexample :
    (mkFormatter 0).max_errors_per_batch = 0 ∧
      get_total_batches (mkFormatter 0) 5 = none := by
  exact ⟨rfl, rfl⟩

/-- C4 (amended): construction accepts any `max_errors_per_batch`, including
values `≤ 0`, storing the value unvalidated; as a result `get_total_batches`
raises `ZeroDivisionError` exactly when `max_errors_per_batch = 0` (for
negative values it silently returns a floor-division result). -/
theorem claim_c4_amended (m : Int) (hm : m ≤ 0) :
    (mkFormatter m).max_errors_per_batch = m ∧
      (∀ n : Int, (get_total_batches (mkFormatter m) n = none ↔ m = 0)) := by
  refine ⟨rfl, fun n => ?_⟩
  unfold get_total_batches mkFormatter
  by_cases h : m = 0 <;> simp [h]

/-- C4 (witness): the amended theorem applied at `m = 0` and `n = 7`. -/
theorem claim_c4_amended_witness :
    (mkFormatter 0).max_errors_per_batch = 0 ∧
      (get_total_batches (mkFormatter 0) 7 = none ↔ (0 : Int) = 0) := by
  exact ⟨(claim_c4_amended 0 le_rfl).1, (claim_c4_amended 0 le_rfl).2 7⟩

/-! ## Claim C10 -/

/-- C10 (confirmed): `apply_fixes` called with an empty fix list returns
`True` and leaves every file unchanged; and for a non-empty fix list success
is reported exactly when at least one fix was counted as applied
(`success_count > 0`), so the empty batch is the one case where success is
reported with zero fixes applied. -/
theorem claim_c10 :
    (∀ project fs, applyFixes project fs [] = (fs, true)) ∧
      (∀ project fs fixes, fixes ≠ [] →
        ((applyFixes project fs fixes).2 = true ↔
          0 < (applyFixesCount project fs fixes).2)) := by
  constructor
  · intro project fs; rfl
  · intro project fs fixes hne
    unfold applyFixes
    rw [if_neg (by simpa using hne)]
    simp

/-- C10 (witness): the second conjunct instantiated at a concrete non-empty
fix list whose only fix is skipped (file not found): `apply_fixes` reports
failure and indeed zero fixes were applied. -/
theorem claim_c10_witness :
    applyFixes "p" fsSample [] = (fsSample, true) ∧
      ((applyFixes "p" fsSample [badFix]).2 = true ↔
        0 < (applyFixesCount "p" fsSample [badFix]).2) := by
  exact ⟨claim_c10.1 "p" fsSample, claim_c10.2 "p" fsSample [badFix] (by decide)⟩

/-! ## Helper lemmas: the batch count -/

theorem totalBatchesNat_mul_bounds (n m : Nat) (hm : 0 < m) :
    n ≤ totalBatchesNat m n * m ∧ totalBatchesNat m n * m < n + m := by
  unfold totalBatchesNat
  have h := Nat.div_add_mod (n + m - 1) m
  have hr : (n + m - 1) % m < m := Nat.mod_lt _ hm
  have h2 : ((n + m - 1) / m) * m + (n + m - 1) % m = n + m - 1 := by
    rw [Nat.mul_comm] at h
    exact h
  generalize ((n + m - 1) / m) * m = X at h2 ⊢
  omega

theorem get_total_batches_eq_nat (n m : Nat) (hm : 0 < m) :
    get_total_batches (mkFormatter (m : Int)) (n : Int) =
      some ((totalBatchesNat m n : Nat) : Int) := by
  unfold get_total_batches mkFormatter totalBatchesNat
  have hm0 : ((m : Int)) ≠ 0 := by
    exact_mod_cast Nat.pos_iff_ne_zero.mp hm
  rw [if_neg hm0]
  congr 1
  have hcast : ((n + m - 1 : Nat) : Int) = (n : Int) + m - 1 := by
    rw [Nat.cast_sub (by omega : 1 ≤ n + m)]
    push_cast
    ring
  rw [← hcast, Int.fdiv_eq_tdiv (by positivity) (by positivity), ← Int.ofNat_tdiv]

theorem totalBatchesNat_cast_eq_ceil (n m : Nat) (hm : 0 < m) :
    ((totalBatchesNat m n : Nat) : Int) = ⌈(n : ℚ) / (m : ℚ)⌉ := by
  have hb := totalBatchesNat_mul_bounds n m hm
  have hmQ : (0 : ℚ) < m := by exact_mod_cast hm
  symm
  rw [Int.ceil_eq_iff]
  constructor
  · rw [show (((totalBatchesNat m n : Nat) : Int) : ℚ) = ((totalBatchesNat m n : Nat) : ℚ)
        by push_cast; ring]
    rw [sub_lt_iff_lt_add, div_add' _ _ _ (ne_of_gt hmQ), lt_div_iff hmQ]
    have h2 : ((totalBatchesNat m n * m : Nat) : ℚ) < ((n + m : Nat) : ℚ) := by
      exact_mod_cast hb.2
    push_cast at h2
    nlinarith
  · rw [show (((totalBatchesNat m n : Nat) : Int) : ℚ) = ((totalBatchesNat m n : Nat) : ℚ)
        by push_cast; ring]
    rw [div_le_iff hmQ]
    exact_mod_cast hb.1

/-! ## Claim C8 -/

/-- C8 (confirmed): for every error count `n ≥ 0` and every
`max_errors_per_batch` `m > 0`, `get_total_batches` returns `⌈n / m⌉`; in
particular it returns `0` for `0` errors.  (The particular instance
`7` errors with batch size `3` giving `3` batches is the witness below.) -/
theorem claim_c8 (n m : Nat) (hm : 0 < m) :
    get_total_batches (mkFormatter (m : Int)) (n : Int) = some ⌈(n : ℚ) / (m : ℚ)⌉ ∧
      get_total_batches (mkFormatter (m : Int)) 0 = some 0 := by
  constructor
  · rw [get_total_batches_eq_nat n m hm, totalBatchesNat_cast_eq_ceil n m hm]
  · have h := get_total_batches_eq_nat 0 m hm
    have h0 : totalBatchesNat m 0 = 0 := by
      unfold totalBatchesNat
      exact Nat.div_eq_of_lt (by omega)
    rw [h0] at h
    exact_mod_cast h


/-- C8 (witness): `7` errors with batch size `3` give `3` batches, and `0`
errors give `0` batches. -/
theorem claim_c8_witness :
    get_total_batches (mkFormatter 3) 7 = some 3 ∧
      get_total_batches (mkFormatter 3) 0 = some 0 := by
  have h := claim_c8 7 3 (by norm_num)
  have h1 := h.1
  have hc : ⌈((7 : Nat) : ℚ) / ((3 : Nat) : ℚ)⌉ = 3 := by
    rw [Int.ceil_eq_iff] <;> norm_num
  rw [hc] at h1
  exact ⟨by exact_mod_cast h1, by exact_mod_cast h.2⟩

/-! ## Claim C9 -/

/-- C9 (confirmed): `_determine_error_type` is exactly the first-match
keyword lookup of the spec: the first keyword among `undefined`, `type`,
`missing`, `not.found`, `arguments` (in that priority order) occurring in
the lowercased error code decides the classification, and `other` is
returned when none matches — for every message and error code, the source's
if-chain agrees with the spec's table lookup `classifySpec`. -/
theorem claim_c9 :
    ∀ msg ec : String, determine_error_type msg ec = classifySpec ec := by
  intro msg ec
  cases h1 : occursIn "undefined".data (pyLowerL ec.data) <;>
    cases h2 : occursIn "type".data (pyLowerL ec.data) <;>
      cases h3 : occursIn "missing".data (pyLowerL ec.data) <;>
        cases h4 : occursIn "not.found".data (pyLowerL ec.data) <;>
          cases h5 : occursIn "arguments".data (pyLowerL ec.data) <;>
            simp [determine_error_type, classifySpec, keywordTable, List.find?,
              h1, h2, h3, h4, h5]

/-! ## Helper lemmas: physical lines are substrings of the content -/

theorem splitNl_ne_nil : ∀ s : List Char, splitNl s ≠ [] := by
  intro s
  cases s with
  | nil => simp [splitNl]
  | cons c rest =>
    simp only [splitNl]
    cases h : splitNl rest with
    | nil => simp
    | cons l ls => by_cases hc : c = '\n' <;> simp [hc]

theorem splitNl_head : ∀ (s l : List Char) (ls : List (List Char)),
    splitNl s = l :: ls → ∃ t, s = l ++ t := by
  intro s
  induction s with
  | nil =>
    intro l ls h
    simp only [splitNl, List.cons.injEq] at h
    exact ⟨[], by simp [← h.1]⟩
  | cons c rest ih =>
    intro l ls h
    cases hr : splitNl rest with
    | nil => exact absurd hr (splitNl_ne_nil rest)
    | cons l' ls' =>
      by_cases hc : c = '\n'
      · have hs : splitNl (c :: rest) = [] :: l' :: ls' := by
          simp [splitNl, hr, hc]
        rw [hs] at h
        injection h with h1 _
        exact ⟨c :: rest, by rw [← h1]; rfl⟩
      · have hs : splitNl (c :: rest) = (c :: l') :: ls' := by
          simp [splitNl, hr, hc]
        rw [hs] at h
        injection h with h1 _
        obtain ⟨t, ht⟩ := ih l' ls' hr
        exact ⟨t, by rw [← h1, ht]; rfl⟩

theorem mem_splitNl_infix : ∀ s L : List Char, L ∈ splitNl s →
    ∃ a b, s = a ++ L ++ b := by
  intro s
  induction s with
  | nil =>
    intro L hL
    simp [splitNl] at hL
    subst hL
    exact ⟨[], [], rfl⟩
  | cons c rest ih =>
    intro L hL
    cases hr : splitNl rest with
    | nil => exact absurd hr (splitNl_ne_nil rest)
    | cons l' ls' =>
      by_cases hc : c = '\n'
      · have hs : splitNl (c :: rest) = [] :: l' :: ls' := by
          simp [splitNl, hr, hc]
        rw [hs] at hL
        rcases List.mem_cons.mp hL with h | h
        · subst h
          exact ⟨[], c :: rest, rfl⟩
        · obtain ⟨a, b, hab⟩ := ih L (by rw [hr]; exact h)
          exact ⟨c :: a, b, by rw [hab]; rfl⟩
      · have hs : splitNl (c :: rest) = (c :: l') :: ls' := by
          simp [splitNl, hr, hc]
        rw [hs] at hL
        rcases List.mem_cons.mp hL with h | h
        · subst h
          obtain ⟨t, ht⟩ := splitNl_head rest l' ls' hr
          exact ⟨[], t, by rw [ht]; rfl⟩
        · obtain ⟨a, b, hab⟩ := ih L (by rw [hr]; exact List.mem_cons.mpr (Or.inr h))
          exact ⟨c :: a, b, by rw [hab]; rfl⟩

theorem occursIn_of_mem_splitNl {s L : List Char} (h : L ∈ splitNl s) :
    occursIn L s = true := by
  obtain ⟨a, b, hab⟩ := mem_splitNl_infix s L h
  rw [hab]
  exact occursIn_append_self L a b

/-! ## Claim C5 -/

/-- C5 (counterexample): the claim says that whenever the content contains a
fragment equal to the original modulo whitespace collapsing, the patch
mutates EXACTLY the first physical line whose normalised form contains the
normalised fragment.  With original `"foo(  x )"` and content
`"foo( x )\nfoo( x )"` the first matching physical line is `"foo( x )"`, so
the claim predicts the result `"bar\nfoo( x )"` (only line 1 mutated); the
code instead runs `content.replace(line, fixed)`, which rewrites BOTH lines,
giving `"bar\nbar"`. -/
theorem claim_c5_counterexample :
    patchContent "foo(  x )" "bar" "foo( x )\nfoo( x )" = some "bar\nbar" ∧
      (splitNl "foo( x )\nfoo( x )".data).find?
          (fun line => occursIn (normWsL "foo(  x )".data) (normWsL line)) =
        some "foo( x )".data ∧
      ("bar\nbar" : String) ≠ "bar\nfoo( x )" := by
  refine ⟨by decide, by decide, by decide⟩

/-- C5 (amended): when the content contains the original fragment modulo
whitespace collapsing, the fix always succeeds (is counted as applied), and:
if the fragment occurs verbatim the whole-content Python replace runs; in the
fuzzy case with a first physical line `L` whose normalised form contains the
normalised fragment, `L`'s exact text becomes the effective original
fragment and EVERY occurrence of `L` in the content (not just that line) is
replaced — and `L` genuinely occurs in the content; if instead no single
physical line matches (the fragment spans lines), the content is written
back unchanged although the fix is still counted as applied. -/
theorem claim_c5_amended (o f c : String)
    (hfz : occursIn (normWsL o.data) (normWsL c.data) = true) :
    (occursIn o.data c.data = true →
      patchContent o f c = some (String.mk (pyReplaceL o.data f.data c.data)))
    ∧ (occursIn o.data c.data = false →
        (∀ L, (splitNl c.data).find?
              (fun line => occursIn (normWsL o.data) (normWsL line)) = some L →
            patchContent o f c = some (String.mk (pyReplaceL L f.data c.data)) ∧
              occursIn L c.data = true)
        ∧ ((splitNl c.data).find?
              (fun line => occursIn (normWsL o.data) (normWsL line)) = none →
            patchContent o f c = some c)) := by
  constructor
  · intro hocc
    unfold patchContent
    simp only [hocc, if_true]
  · intro hnocc
    constructor
    · intro L hfind
      refine ⟨?_, occursIn_of_mem_splitNl (List.mem_of_find?_eq_some hfind)⟩
      unfold patchContent
      simp only [hnocc, Bool.false_eq_true, if_false, hfz, if_true, hfind]
    · intro hfind
      unfold patchContent
      simp only [hnocc, Bool.false_eq_true, if_false, hfz, if_true, hfind]
      rw [pyReplaceL_no_occurrence o.data f.data c.data hnocc]

/-- C5 (witness for the amended theorem): original `"foo(  x )"` against
content `"q\nfoo( x )"` — no verbatim match, the fuzzy scan selects the
physical line `"foo( x )"`, and the patch succeeds producing `"q\nbar"`. -/
theorem claim_c5_amended_witness :
    patchContent "foo(  x )" "bar" "q\nfoo( x )" = some "q\nbar" ∧
      occursIn "foo( x )".data "q\nfoo( x )".data = true := by
  have h := (claim_c5_amended "foo(  x )" "bar" "q\nfoo( x )" (by decide)).2 (by decide)
  have h2 := h.1 "foo( x )".data (by decide)
  exact ⟨h2.1.trans (by decide), h2.2⟩

/-! ## Helper lemmas: the fix-application loop -/

theorem applyOneFix_not_applied_fst (project : String) (fs : FileSys)
    (fix : FixProposal) (h : (applyOneFix project fs fix).2 = false) :
    (applyOneFix project fs fix).1 = fs := by
  unfold applyOneFix at h ⊢
  by_cases hg : fix.file = "" ∨ fix.original_code = "" ∨ fix.fixed_code = ""
  · rw [if_pos hg]
  · rw [if_neg hg] at h ⊢
    cases hres : resolveFix fs project fix.file with
    | none => simp [hres]
    | some path =>
      simp only [hres] at h ⊢
      cases hlk : List.lookup path fs with
      | none => simp [hlk]
      | some content =>
        simp only [hlk] at h ⊢
        cases hpc : patchContent fix.original_code fix.fixed_code content with
        | none => simp [hpc]
        | some nc => simp [hpc] at h

theorem applyFixesCount_all_skipped (project : String) (fs : FileSys) :
    ∀ fixes : List FixProposal,
      (∀ fix ∈ fixes, (applyOneFix project fs fix).2 = false) →
      applyFixesCount project fs fixes = (fs, 0) := by
  intro fixes
  induction fixes with
  | nil => intro _; rfl
  | cons fix rest ih =>
    intro h
    have h0 : (applyOneFix project fs fix).2 = false := h fix (List.mem_cons_self _ _)
    have h1 : (applyOneFix project fs fix).1 = fs :=
      applyOneFix_not_applied_fst project fs fix h0
    have hstep : applyFixesStep project (fs, 0) fix = (fs, 0) := by
      unfold applyFixesStep
      rw [h0, h1]
      rfl
    unfold applyFixesCount at ih ⊢
    rw [List.foldl_cons, hstep]
    exact ih (fun fx hfx => h fx (List.mem_cons_of_mem _ hfx))

theorem applyFixes_all_skipped (project : String) (fs : FileSys)
    (fixes : List FixProposal) (hne : fixes ≠ [])
    (h : ∀ fix ∈ fixes, (applyOneFix project fs fix).2 = false) :
    applyFixes project fs fixes = (fs, false) := by
  unfold applyFixes
  rw [if_neg (by simpa using hne), applyFixesCount_all_skipped project fs fixes h]
  rfl

/-! ## Helper lemmas: the batch loop and the iteration loop -/

theorem runBatches_all_empty (env : LoopEnv) (project : String) (fs : FileSys)
    (hfix : ∀ b, env.fixer fs b = []) :
    ∀ (bs : List FormattedBatch) (st : Stats) (fixed : Nat),
      runBatches env project bs fs st fixed =
        .ok (fs, { st with total_batches_processed :=
                     st.total_batches_processed + bs.length }, fixed) := by
  intro bs
  induction bs with
  | nil =>
    intro st fixed
    obtain ⟨s1, s2, s3, s4⟩ := st
    simp [runBatches]
  | cons b rest ih =>
    intro st fixed
    unfold runBatches
    rw [hfix b]
    simp only [List.isEmpty_nil, if_true]
    rw [ih _ fixed]
    obtain ⟨s1, s2, s3, s4⟩ := st
    simp only [List.length_cons, Except.ok.injEq, Prod.mk.injEq, Stats.mk.injEq,
      true_and, and_true]
    omega

theorem runBatches_preserves_iterations (env : LoopEnv) (project : String) :
    ∀ (bs : List FormattedBatch) (fs : FileSys) (st : Stats) (fixed : Nat),
      (∀ fs' st', runBatches env project bs fs st fixed = .error (fs', st') →
          st'.iterations = st.iterations)
      ∧ (∀ fs' st' k, runBatches env project bs fs st fixed = .ok (fs', st', k) →
          st'.iterations = st.iterations) := by
  intro bs
  induction bs with
  | nil =>
    intro fs st fixed
    constructor
    · intro fs' st' h
      simp [runBatches] at h
    · intro fs' st' k h
      simp only [runBatches, Except.ok.injEq, Prod.mk.injEq] at h
      rw [← h.2.1]
  | cons b rest ih =>
    intro fs st fixed
    by_cases hemp : (env.fixer fs b).isEmpty = true
    · constructor
      · intro fs' st' h
        unfold runBatches at h
        rw [if_pos hemp] at h
        have := (ih fs
          { st with total_batches_processed := st.total_batches_processed + 1 }
          fixed).1 fs' st' h
        simpa using this
      · intro fs' st' k h
        unfold runBatches at h
        rw [if_pos hemp] at h
        have := (ih fs
          { st with total_batches_processed := st.total_batches_processed + 1 }
          fixed).2 fs' st' k h
        simpa using this
    · have hemp' : (env.fixer fs b).isEmpty = false := by
        simpa using hemp
      by_cases happ : (applyFixes project fs (env.fixer fs b)).2 = true
      · constructor
        · intro fs' st' h
          unfold runBatches at h
          rw [if_neg hemp, if_pos happ] at h
          have := (ih _ _ _).1 fs' st' h
          simpa [updateErrorStats] using this
        · intro fs' st' k h
          unfold runBatches at h
          rw [if_neg hemp, if_pos happ] at h
          have := (ih _ _ _).2 fs' st' k h
          simpa [updateErrorStats] using this
      · constructor
        · intro fs' st' h
          unfold runBatches at h
          rw [if_neg hemp, if_neg happ] at h
          simp only [Except.error.injEq, Prod.mk.injEq] at h
          rw [← h.2]
        · intro fs' st' k h
          unfold runBatches at h
          rw [if_neg hemp, if_neg happ] at h
          simp at h

theorem processAux_bounds (env : LoopEnv) (project : String) :
    ∀ (rem it : Nat) (fs : FileSys) (st : Stats) (tf : Nat),
      st.iterations = 0 →
      (processAux env project rem it fs st tf).2.2.iterations ≤ rem + it
      ∧ ((processAux env project rem it fs st tf).1 = .exhausted →
          (processAux env project rem it fs st tf).2.2.iterations = rem + it)
      ∧ ((processAux env project rem it fs st tf).1 = .applyFailed →
          (processAux env project rem it fs st tf).2.2.iterations = 0) := by
  intro rem
  induction rem with
  | zero =>
    intro it fs st tf hst
    refine ⟨?_, ?_, ?_⟩ <;> simp [processAux]
  | succ rem ih =>
    intro it fs st tf hst
    by_cases hrc : (env.analyze fs).1 = 0
    · refine ⟨?_, ?_, ?_⟩ <;> simp [processAux, hrc]
      omega
    · cases hrb : runBatches env project (env.analyze fs).2 fs st 0 with
      | error p =>
        obtain ⟨fs', st'⟩ := p
        have hit : st'.iterations = st.iterations :=
          (runBatches_preserves_iterations env project _ fs st 0).1 fs' st' hrb
        refine ⟨?_, ?_, ?_⟩ <;> simp [processAux, hrc, hrb]
        · rw [hit, hst]; omega
        · rw [hit, hst]
      | ok p =>
        obtain ⟨fs', st', k⟩ := p
        have hit : st'.iterations = st.iterations :=
          (runBatches_preserves_iterations env project _ fs st 0).2 fs' st' k hrb
        by_cases hk : k = 0
        · refine ⟨?_, ?_, ?_⟩ <;> simp [processAux, hrc, hrb, hk]
          omega
        · have ihh := ih (it + 1) fs' st' (tf + k) (by rw [hit, hst])
          refine ⟨?_, ?_, ?_⟩ <;> simp [processAux, hrc, hrb, hk]
          · have := ihh.1
            omega
          · intro hexh
            have := ihh.2.1 hexh
            omega
          · intro hap
            exact ihh.2.2 hap

/-! ## Claim C6 -/

/-- C6 (confirmed): if the Fixer returns an empty fix list for every batch
(in particular on the first iteration's state) and the analyzer reports a
nonzero exit code, `process` terminates after exactly one iteration with the
no-progress (`stuck`) failure outcome, and the statistics record
`iterations = 1`, zero fixes, and every batch of that single iteration
counted as processed. -/
theorem claim_c6 (env : LoopEnv) (project : String) (fs : FileSys) (maxIter : Nat)
    (hfix : ∀ b, env.fixer fs b = [])
    (hrc : (env.analyze fs).1 ≠ 0) (hmax : 0 < maxIter) :
    process env project maxIter fs =
      (.stuck, fs, ⟨1, 0, ((env.analyze fs).2).length, []⟩) := by
  obtain ⟨k, rfl⟩ : ∃ k, maxIter = k + 1 := ⟨maxIter - 1, by omega⟩
  unfold process processAux
  rw [if_neg hrc, runBatches_all_empty env project fs hfix ((env.analyze fs).2)
    initStats 0]
  simp [initStats]

/-- C6 (witness): a concrete environment whose fixer never proposes fixes and
whose analyzer always reports errors in one batch: one stuck iteration. -/
theorem claim_c6_witness :
    process envEmptyFixer "p" 5 fsSample = (.stuck, fsSample, ⟨1, 0, 1, []⟩) := by
  have h := claim_c6 envEmptyFixer "p" fsSample 5 (fun b => rfl)
    (by decide) (by decide)
  exact h.trans (by decide)

/-! ## Claim C3 -/

/-- C3 (counterexample): the claim says a batch whose fixes all fail to apply
is not fatal and later batches / iterations are still attempted.  In the
concrete environment `envTwoBatches` the analyzer reports two batches and the
first batch's only suggested fix is unapplicable: `process` returns failure
immediately with the statistics still at their initial values — in
particular `total_batches_processed = 0` and `iterations = 0` although two
batches were reported, so the second batch and all further iterations were
never attempted. -/
theorem claim_c3_counterexample :
    process envTwoBatches "p" 3 fsSample = (.applyFailed, fsSample, initStats) ∧
      ((envTwoBatches.analyze fsSample).2).length = 2 := by
  exact ⟨by decide, by decide⟩

/-- C3 (amended): when every fix in a batch is skipped, `apply_fixes` does
report failure to the caller (first conjunct) — but the caller treats that
single failed batch as FATAL: `process` returns failure immediately, with
untouched statistics, and neither the remaining batches of the iteration nor
any later iteration is attempted (second conjunct). -/
theorem claim_c3_amended :
    (∀ (project : String) (fs : FileSys) (fixes : List FixProposal),
        fixes ≠ [] →
        (∀ fix ∈ fixes, (applyOneFix project fs fix).2 = false) →
        applyFixes project fs fixes = (fs, false))
    ∧ (∀ (env : LoopEnv) (project : String) (maxIter : Nat) (fs : FileSys)
        (b0 : FormattedBatch) (rest : List FormattedBatch),
        (env.analyze fs).2 = b0 :: rest → (env.analyze fs).1 ≠ 0 →
        env.fixer fs b0 ≠ [] →
        (applyFixes project fs (env.fixer fs b0)).2 = false →
        0 < maxIter →
        process env project maxIter fs =
          (.applyFailed, (applyFixes project fs (env.fixer fs b0)).1, initStats)) := by
  constructor
  · exact applyFixes_all_skipped
  · intro env project maxIter fs b0 rest hb hrc hne happ hpos
    obtain ⟨k, rfl⟩ : ∃ k, maxIter = k + 1 := ⟨maxIter - 1, by omega⟩
    have hemp : (env.fixer fs b0).isEmpty = false := by simpa using hne
    unfold process processAux
    rw [if_neg hrc, hb]
    unfold runBatches
    simp [hemp, happ]

/-- C3 (witness for the amended theorem): both conjuncts at concrete inputs —
a single skipped fix makes `apply_fixes` return failure, and a loop
environment whose first batch fails to apply makes `process` abort at once. -/
theorem claim_c3_amended_witness :
    applyFixes "p" fsSample [badFix] = (fsSample, false) ∧
      process envBadFix "p" 4 fsSample =
        (.applyFailed, (applyFixes "p" fsSample (envBadFix.fixer fsSample batchA)).1,
          initStats) := by
  refine ⟨claim_c3_amended.1 "p" fsSample [badFix] (by decide) ?_, ?_⟩
  · intro fix hfx
    have hfix : fix = badFix := by simpa using hfx
    subst hfix
    decide
  · exact claim_c3_amended.2 envBadFix "p" 4 fsSample batchA [] (by decide)
      (by decide) (by decide) (by decide) (by norm_num)

/-! ## Claim C7 -/

/-- C7 (counterexample): the claim says every run ends by DONE, STUCK or
EXHAUSTED.  In the environment `envBadFix` (analyzer always reports one
batch, fixer proposes an unapplicable fix) the run ends by the fourth exit
path: the early abort when a batch's suggested fixes all fail to apply
(`return False` before any end-of-iteration bookkeeping), which is none of
the three claimed outcomes. -/
theorem claim_c7_counterexample :
    (process envBadFix "p" 5 fsSample).1 = Outcome.applyFailed ∧
      Outcome.applyFailed ≠ Outcome.done ∧
      Outcome.applyFailed ≠ Outcome.stuck ∧
      Outcome.applyFailed ≠ Outcome.exhausted := by
  refine ⟨by decide, by decide, by decide, by decide⟩

/-- C7 (amended): for every positive iteration cap and every behaviour of the
external Analyzer and Fixer (total functions), the convergence loop
terminates — within `max_iterations` iterations — and ends in one of FOUR
ways: zero errors (`done`), a zero-progress iteration (`stuck`), the
iteration cap (`exhausted`), or the early failure-abort when a batch's
suggested fixes all fail to apply (`applyFailed`, which leaves the iteration
counter in the statistics untouched at `0`); there is no input on which it
loops indefinitely.  `exhausted` runs record exactly `max_iterations`
iterations. -/
theorem claim_c7_amended (env : LoopEnv) (project : String) (maxIter : Nat)
    (fs : FileSys) (hpos : 0 < maxIter) :
    ((process env project maxIter fs).2.2.iterations ≤ maxIter)
    ∧ ((process env project maxIter fs).1 = .exhausted →
        (process env project maxIter fs).2.2.iterations = maxIter)
    ∧ ((process env project maxIter fs).1 = .applyFailed →
        (process env project maxIter fs).2.2.iterations = 0)
    ∧ ((process env project maxIter fs).1 = .done ∨
        (process env project maxIter fs).1 = .stuck ∨
        (process env project maxIter fs).1 = .exhausted ∨
        (process env project maxIter fs).1 = .applyFailed) := by
  have h := processAux_bounds env project maxIter 0 fs initStats 0 rfl
  refine ⟨by simpa using h.1, by simpa using h.2.1, h.2.2, ?_⟩
  cases hx : (process env project maxIter fs).1 <;> simp

/-! ## Helper lemmas: grouping a batch by file -/

theorem flattenGroups_insertGrouped_perm (e : PhpStanError) :
    ∀ g : List (String × List PhpStanError),
      (flattenGroups (insertGrouped g e)).Perm (flattenGroups g ++ [e]) := by
  intro g
  induction g with
  | nil => simp [insertGrouped, flattenGroups]
  | cons p rest ih =>
    obtain ⟨f, es⟩ := p
    by_cases hf : f = e.file
    · simp only [insertGrouped, if_pos hf, flattenGroups, List.map_cons,
        List.flatten_cons, List.append_assoc]
      exact List.Perm.append_left es List.perm_append_comm
    · simp only [insertGrouped, if_neg hf, flattenGroups, List.map_cons,
        List.flatten_cons, List.append_assoc]
      exact (ih.append_left es).trans (List.Perm.refl _)

theorem flattenGroups_foldl_perm :
    ∀ (w : List PhpStanError) (g : List (String × List PhpStanError)),
      (flattenGroups (w.foldl insertGrouped g)).Perm (flattenGroups g ++ w) := by
  intro w
  induction w with
  | nil => intro g; simp
  | cons e w' ih =>
    intro g
    rw [List.foldl_cons]
    refine (ih (insertGrouped g e)).trans ?_
    have h1 := (flattenGroups_insertGrouped_perm e g).append_right w'
    refine h1.trans ?_
    rw [List.append_assoc]
    exact List.Perm.refl _

theorem groupByFile_flatten_perm (w : List PhpStanError) :
    (flattenGroups (groupByFile w)).Perm w := by
  have h := flattenGroups_foldl_perm w []
  simpa [groupByFile, flattenGroups] using h

theorem insertGrouped_keys (e : PhpStanError) :
    ∀ (g : List (String × List PhpStanError)) (x : String),
      x ∈ (insertGrouped g e).map Prod.fst → x ∈ g.map Prod.fst ∨ x = e.file := by
  intro g
  induction g with
  | nil =>
    intro x hx
    simp [insertGrouped] at hx
    exact Or.inr hx
  | cons p rest ih =>
    obtain ⟨f, es⟩ := p
    intro x hx
    by_cases hf : f = e.file
    · simp only [insertGrouped, if_pos hf, List.map_cons, List.mem_cons] at hx
      simp only [List.map_cons, List.mem_cons]
      tauto
    · simp only [insertGrouped, if_neg hf, List.map_cons, List.mem_cons] at hx
      simp only [List.map_cons, List.mem_cons]
      rcases hx with h | h
      · exact Or.inl (Or.inl h)
      · rcases ih x h with h2 | h2
        · exact Or.inl (Or.inr h2)
        · exact Or.inr h2

theorem insertGrouped_pure (e : PhpStanError) :
    ∀ g : List (String × List PhpStanError),
      (∀ p ∈ g, ∀ x ∈ p.2, x.file = p.1) →
      ∀ p ∈ insertGrouped g e, ∀ x ∈ p.2, x.file = p.1 := by
  intro g
  induction g with
  | nil =>
    intro _ p hp x hx
    simp [insertGrouped] at hp
    subst hp
    simp at hx
    subst hx
    rfl
  | cons q rest ih =>
    obtain ⟨f, es⟩ := q
    intro hpure p hp x hx
    by_cases hf : f = e.file
    · simp only [insertGrouped, if_pos hf, List.mem_cons] at hp
      rcases hp with h | h
      · subst h
        simp only [List.mem_append, List.mem_singleton] at hx
        rcases hx with h2 | h2
        · exact hpure (f, es) (List.mem_cons_self _ _) x h2
        · subst h2
          exact hf.symm
      · exact hpure p (List.mem_cons_of_mem _ h) x hx
    · simp only [insertGrouped, if_neg hf, List.mem_cons] at hp
      rcases hp with h | h
      · subst h
        exact hpure (f, es) (List.mem_cons_self _ _) x hx
      · exact ih (fun q hq => hpure q (List.mem_cons_of_mem _ hq)) p h x hx

theorem insertGrouped_keys_nodup (e : PhpStanError) :
    ∀ g : List (String × List PhpStanError),
      (g.map Prod.fst).Nodup → ((insertGrouped g e).map Prod.fst).Nodup := by
  intro g
  induction g with
  | nil =>
    intro _
    simp [insertGrouped]
  | cons q rest ih =>
    obtain ⟨f, es⟩ := q
    intro hnd
    simp only [List.map_cons, List.nodup_cons] at hnd
    by_cases hf : f = e.file
    · simp only [insertGrouped, if_pos hf, List.map_cons, List.nodup_cons]
      exact hnd
    · simp only [insertGrouped, if_neg hf, List.map_cons, List.nodup_cons]
      refine ⟨fun hmem => ?_, ih hnd.2⟩
      rcases insertGrouped_keys e rest f hmem with h | h
      · exact hnd.1 h
      · exact hf h

theorem flattenGroups_filter_nil (fname : String) :
    ∀ g : List (String × List PhpStanError),
      (∀ p ∈ g, ∀ x ∈ p.2, x.file = p.1) →
      (∀ p ∈ g, p.1 ≠ fname) →
      (flattenGroups g).filter (fun x => x.file == fname) = [] := by
  intro g
  induction g with
  | nil => intro _ _; rfl
  | cons q rest ih =>
    obtain ⟨f, es⟩ := q
    intro hpure hnot
    have hes : es.filter (fun x => x.file == fname) = [] := by
      refine List.filter_eq_nil_iff.mpr ?_
      intro x hx
      have hxf : x.file = f := hpure (f, es) (List.mem_cons_self _ _) x hx
      have hne : f ≠ fname := hnot (f, es) (List.mem_cons_self _ _)
      simp [hxf, hne]
    have hrest := ih (fun p hp => hpure p (List.mem_cons_of_mem _ hp))
      (fun p hp => hnot p (List.mem_cons_of_mem _ hp))
    simp only [flattenGroups, List.map_cons, List.flatten_cons,
      List.filter_append] at hrest ⊢
    rw [hes, hrest]
    rfl

/-- C7 (witness for the amended theorem): the amended theorem instantiated at
the concrete environment `envEmptyFixer` with cap `5`. -/
theorem claim_c7_amended_witness :
    ((process envEmptyFixer "p" 5 fsSample).2.2.iterations ≤ 5)
    ∧ ((process envEmptyFixer "p" 5 fsSample).1 = .exhausted →
        (process envEmptyFixer "p" 5 fsSample).2.2.iterations = 5)
    ∧ ((process envEmptyFixer "p" 5 fsSample).1 = .applyFailed →
        (process envEmptyFixer "p" 5 fsSample).2.2.iterations = 0)
    ∧ ((process envEmptyFixer "p" 5 fsSample).1 = .done ∨
        (process envEmptyFixer "p" 5 fsSample).1 = .stuck ∨
        (process envEmptyFixer "p" 5 fsSample).1 = .exhausted ∨
        (process envEmptyFixer "p" 5 fsSample).1 = .applyFailed) := by
  exact claim_c7_amended envEmptyFixer "p" 5 fsSample (by norm_num)


theorem flattenGroups_insertGrouped_filter (e : PhpStanError) (fname : String) :
    ∀ g : List (String × List PhpStanError),
      (∀ p ∈ g, ∀ x ∈ p.2, x.file = p.1) →
      (g.map Prod.fst).Nodup →
      (flattenGroups (insertGrouped g e)).filter (fun x => x.file == fname) =
        (flattenGroups g).filter (fun x => x.file == fname) ++
          (if e.file == fname then [e] else []) := by
  intro g
  induction g with
  | nil =>
    intro _ _
    by_cases he : e.file = fname
    · have hb : (e.file == fname) = true := beq_iff_eq.mpr he
      simp [insertGrouped, flattenGroups, List.filter, hb]
    · have hb : (e.file == fname) = false := beq_eq_false_iff_ne.mpr he
      simp [insertGrouped, flattenGroups, List.filter, hb]
  | cons q rest ih =>
    obtain ⟨f, es⟩ := q
    intro hpure hnd
    simp only [List.map_cons, List.nodup_cons] at hnd
    by_cases hf : f = e.file
    · by_cases he : e.file = fname
      · have hzero : ((rest.map Prod.snd).flatten).filter (fun x => x.file == fname) = [] := by
          have h := flattenGroups_filter_nil fname rest
            (fun p hp => hpure p (List.mem_cons_of_mem _ hp))
            (fun p hp hcon => by
              apply hnd.1
              have hm : p.1 ∈ rest.map Prod.fst := List.mem_map_of_mem Prod.fst hp
              rwa [hcon, ← he, ← hf] at hm)
          simpa [flattenGroups] using h
        have hb : (e.file == fname) = true := beq_iff_eq.mpr he
        simp only [insertGrouped, if_pos hf, flattenGroups, List.map_cons,
          List.flatten_cons, List.filter_append, hzero]
        simp [List.filter, hb]
      · have hb : (e.file == fname) = false := beq_eq_false_iff_ne.mpr he
        simp only [insertGrouped, if_pos hf, flattenGroups, List.map_cons,
          List.flatten_cons, List.filter_append]
        simp [List.filter, hb]
    · have ihh := ih (fun p hp => hpure p (List.mem_cons_of_mem _ hp)) hnd.2
      simp only [insertGrouped, if_neg hf, flattenGroups, List.map_cons,
        List.flatten_cons, List.filter_append] at ihh ⊢
      rw [ihh]
      simp [List.append_assoc]

theorem flattenGroups_foldl_filter (fname : String) :
    ∀ (w : List PhpStanError) (g : List (String × List PhpStanError)),
      (∀ p ∈ g, ∀ x ∈ p.2, x.file = p.1) →
      (g.map Prod.fst).Nodup →
      (flattenGroups (w.foldl insertGrouped g)).filter (fun x => x.file == fname) =
        (flattenGroups g).filter (fun x => x.file == fname) ++
          w.filter (fun x => x.file == fname) := by
  intro w
  induction w with
  | nil =>
    intro g _ _
    simp
  | cons e w' ih =>
    intro g hpure hnd
    rw [List.foldl_cons,
      ih (insertGrouped g e) (insertGrouped_pure e g hpure)
        (insertGrouped_keys_nodup e g hnd),
      flattenGroups_insertGrouped_filter e fname g hpure hnd,
      List.filter_cons]
    by_cases he : (e.file == fname) = true <;> simp [he]

theorem groupByFile_filter (w : List PhpStanError) (fname : String) :
    (flattenGroups (groupByFile w)).filter (fun x => x.file == fname) =
      w.filter (fun x => x.file == fname) := by
  have h := flattenGroups_foldl_filter fname w [] (by simp) (by simp)
  simpa [groupByFile, flattenGroups] using h

theorem flattenBatch_format (m : Nat) (errors : List PhpStanError) (i : Nat) :
    flattenBatch (format_for_mcp m errors i) =
      flattenGroups (groupByFile ((errors.drop (i * m)).take m)) := rfl

theorem flatten_batches_perm (errors : List PhpStanError) (m : Nat) :
    ∀ k, (((List.range k).map
        (fun i => flattenBatch (format_for_mcp m errors i))).flatten).Perm
      (errors.take (k * m)) := by
  intro k
  induction k with
  | zero => simp
  | succ k ih =>
    rw [List.range_succ, List.map_append, List.flatten_append]
    simp only [List.map_cons, List.map_nil, List.flatten_cons, List.flatten_nil,
      List.append_nil]
    have hb : (flattenBatch (format_for_mcp m errors k)).Perm
        ((errors.drop (k * m)).take m) := by
      rw [flattenBatch_format]
      exact groupByFile_flatten_perm _
    rw [Nat.succ_mul, List.take_add]
    exact ih.append hb

theorem flatten_batches_filter (errors : List PhpStanError) (m : Nat) (fname : String) :
    ∀ k, (((List.range k).map
        (fun i => flattenBatch (format_for_mcp m errors i))).flatten).filter
          (fun x => x.file == fname)
      = (errors.take (k * m)).filter (fun x => x.file == fname) := by
  intro k
  induction k with
  | zero => simp
  | succ k ih =>
    rw [List.range_succ, List.map_append, List.flatten_append]
    simp only [List.map_cons, List.map_nil, List.flatten_cons, List.flatten_nil,
      List.append_nil]
    rw [List.filter_append, ih, flattenBatch_format, groupByFile_filter,
      Nat.succ_mul, List.take_add, List.filter_append]

/-- C2 (amended): for every error sequence and every positive
`max_errors_per_batch`, the batches produced by `format_for_mcp` for indices
`0 .. total_batches - 1`, flattened back into one sequence, reproduce the
original error sequence up to the per-batch regrouping by file: no record is
lost and none duplicated (the flattened concatenation is a permutation of the
original sequence), for every file the subsequence of that file's records is
preserved exactly (same records, same order), every batch's flattened count is
at most `max_errors_per_batch`, and every batch except possibly the final one
is full.  Cross-file order inside one batch is NOT preserved (the
counterexample), because each batch's window is regrouped by first-seen
file. -/
theorem claim_c2_amended (errors : List PhpStanError) (m : Nat) (hm : 0 < m) :
    ((((List.range (totalBatchesNat m errors.length)).map
        (fun i => flattenBatch (format_for_mcp m errors i))).flatten).Perm errors)
    ∧ (∀ fname : String,
        (((List.range (totalBatchesNat m errors.length)).map
            (fun i => flattenBatch (format_for_mcp m errors i))).flatten).filter
            (fun e => e.file == fname)
          = errors.filter (fun e => e.file == fname))
    ∧ (∀ i, (flattenBatch (format_for_mcp m errors i)).length ≤ m)
    ∧ (∀ i, i + 1 < totalBatchesNat m errors.length →
        (flattenBatch (format_for_mcp m errors i)).length = m) := by
  have hbounds := totalBatchesNat_mul_bounds errors.length m hm
  have htake : errors.take (totalBatchesNat m errors.length * m) = errors :=
    List.take_of_length_le hbounds.1
  refine ⟨?_, ?_, ?_, ?_⟩
  · have h := flatten_batches_perm errors m (totalBatchesNat m errors.length)
    rwa [htake] at h
  · intro fname
    have h := flatten_batches_filter errors m fname (totalBatchesNat m errors.length)
    rwa [htake] at h
  · intro i
    have hlen : (flattenBatch (format_for_mcp m errors i)).length =
        ((errors.drop (i * m)).take m).length := by
      rw [flattenBatch_format]
      exact (groupByFile_flatten_perm _).length_eq
    rw [hlen, List.length_take]
    exact min_le_left _ _
  · intro i hi
    have hlen : (flattenBatch (format_for_mcp m errors i)).length =
        ((errors.drop (i * m)).take m).length := by
      rw [flattenBatch_format]
      exact (groupByFile_flatten_perm _).length_eq
    have h1 : (i + 2) * m ≤ totalBatchesNat m errors.length * m :=
      Nat.mul_le_mul_right m (by omega)
    have h2 : (i + 2) * m = i * m + 2 * m := by ring
    have h3 : i * m + m ≤ errors.length := by
      have hb2 := hbounds.2
      generalize totalBatchesNat m errors.length * m = X at h1 hb2
      generalize i * m = Y at h1 h2 ⊢
      omega
    rw [hlen, List.length_take, List.length_drop]
    omega

/-- C2 (counterexample): the claim says flattening all batches reproduces
the original sequence exactly, with no reordering.  For the three records
`errA (file f1), errB (file f2), errC (file f1)` and batch size `3`
everything lands in one batch, which `format_for_mcp` regroups by file as
`{f1: [errA, errC], f2: [errB]}`; flattened, that is `[errA, errC, errB]` —
a reordering of the original `[errA, errB, errC]`. -/
theorem claim_c2_counterexample :
    ((List.range (totalBatchesNat 3 ([errA, errB, errC] : List PhpStanError).length)).map
        (fun i => flattenBatch (format_for_mcp 3 [errA, errB, errC] i))).flatten
      = [errA, errC, errB] ∧
    [errA, errC, errB] ≠ ([errA, errB, errC] : List PhpStanError) := by
  refine ⟨by decide, by decide⟩

/-- C2 (witness for the amended theorem): three records with batch size `2`
(two batches): the flattened concatenation is a permutation of the original
sequence and the non-final batch is full. -/
theorem claim_c2_amended_witness :
    (((List.range (totalBatchesNat 2 ([errA, errB, errC] : List PhpStanError).length)).map
        (fun i => flattenBatch (format_for_mcp 2 [errA, errB, errC] i))).flatten).Perm
      [errA, errB, errC] ∧
    (flattenBatch (format_for_mcp 2 [errA, errB, errC] 0)).length = 2 := by
  have h := claim_c2_amended [errA, errB, errC] 2 (by norm_num)
  exact ⟨h.1, h.2.2.2 0 (by decide)⟩

end McpPhpstan
